import Mathlib

/-!
Shallow embedding of `bayespy/utils/linalg.py`.

Dense numpy arrays are modelled as a shape (list of axis sizes) together with a
row-major flat data list over `ℚ` (the exact-arithmetic stand-in for the float
entries; every claim settled here is about shapes, indexing, grouping and
algebraic structure, not rounding).  Python exceptions are modelled with
`Except PyErr`; reading a name that is not bound raises `PyErr.nameError`, as
Python does (for locals, `UnboundLocalError` is a subclass of `NameError`).

The single-matrix numerical kernels (`scipy.linalg.cho_factor`,
`scipy.linalg.cho_solve`, `scipy.linalg.solve_triangular`) are external
collaborators of the module (spec §1 places them out of scope and §4.3 states
their contract); the embedded operations take them as function parameters.
`nested_iterator` and `broadcasted_shape` live in `bayespy.utils.utils`, which
is not part of the given source: `nested_iterator` (which the module imports)
is modelled from the spec; `broadcasted_shape` is *not* imported by the module,
which is exactly what claims C4 and C3 are about.
-/

namespace BayespyLinalg

/-- Python exceptions that the module can raise in this model. -/
inductive PyErr where
  | nameError (missing : String)
  | valueError (msg : String)
  | exception (msg : String)
deriving DecidableEq, Repr

/-- A dense numpy `ndarray` over exact rationals: a shape and a row-major flat
data list. -/
structure NDArray where
  shape : List Nat
  data : List ℚ
deriving DecidableEq, Repr

instance : Inhabited NDArray := ⟨⟨[], []⟩⟩

/-- Row-major flat position of a (possibly partial, leading-axes) multi-index
inside a shape: the sum of `index component * stride`. -/
def flatIndex : List Nat → List Nat → Nat
  | _, [] => 0
  | [], _ => 0
  | _ :: ss, i :: is => i * ss.prod + flatIndex ss is

/-- Entry of an array at a multi-index (0 outside the stored data). -/
def NDArray.get (x : NDArray) (idx : List Nat) : ℚ :=
  x.data.getD (flatIndex x.shape idx) 0

/-- A multi-index is valid for a shape when it has the same rank and is
componentwise below the axis sizes. -/
def ValidIdx (idx sh : List Nat) : Prop := List.Forall₂ (· < ·) idx sh

/-- Modelled from the spec: `bayespy.utils.utils.nested_iterator`, the Batch
Index Enumerator of §4.2 — every multi-index of the Cartesian product
`range(shape[0]) × … × range(shape[-1])` in lexicographic, first-axis-slowest
order; for an empty shape it yields exactly one empty index. -/
def nested_iterator : List Nat → List (List Nat)
  | [] => [[]]
  | s :: ss => (List.range s).flatMap (fun j => (nested_iterator ss).map (fun t => j :: t))

/-- Reading a Python name: `none` stands for a name that is not bound in the
enclosing scopes, which Python reports as a `NameError` (or its subclass
`UnboundLocalError` for locals). -/
def pyName {β : Type _} (x : Option β) (missing : String) : Except PyErr β :=
  match x with
  | some v => Except.ok v
  | none => Except.error (PyErr.nameError missing)

/-- Python `l[i]` for a (possibly negative) index `i`, defaulting to `d` out of
range: a negative `i` counts from the end, `l[i] = l[len(l) + i]`. -/
def pyGetNeg {β : Type _} (l : List β) (i : Int) (d : β) : β :=
  l.getD (((l.length : Int) + i).toNat) d

/-- The aligned-axis tuple `jnd_b` computed identically in `chol_solve`
(line 75) and `m_solve_triangular` (line 167):
`tuple(i for i in range(-l_min, 0) if sh_b[i] == sh_u[i])`. -/
def jndB (sh_u sh_b : List Nat) : List Int :=
  let l_min : Nat := min sh_u.length sh_b.length
  ((List.range l_min).map (fun (k : Nat) => (k : Int) - (l_min : Int))).filter
    (fun i => pyGetNeg sh_b i 0 == pyGetNeg sh_u i 0)

/-- The per-iteration update of `ind_b` in the solve loops:
`for j in jnd_b: ind_b[j] = i[j]` — positions listed in `jnd_b` (negative
offsets) are pinned to the matching coordinate of the current `U` index `i`,
`none` models `Ellipsis`. -/
def pinIndB (ind_b : List (Option Nat)) (jnd : List Int) (i : List Nat) : List (Option Nat) :=
  jnd.foldl (fun ind j => ind.set (((ind.length : Int) + j).toNat) (some (pyGetNeg i j 0))) ind_b

/-- Embedding of `np.atleast_1d`. -/
def atleast_1d (x : NDArray) : NDArray :=
  match x.shape with
  | [] => ⟨[1], x.data⟩
  | _ => x

/-- Embedding of `np.atleast_2d`. -/
def atleast_2d (x : NDArray) : NDArray :=
  match x.shape with
  | [] => ⟨[1, 1], x.data⟩
  | [n] => ⟨[1, n], x.data⟩
  | _ => x

/-- Embedding of `np.zeros(sh)`. -/
def npZeros (sh : List Nat) : NDArray := ⟨sh, List.replicate sh.prod 0⟩

/-- Embedding of `np.empty(sh)` (entries unspecified; the model fills with 0, every entry is
overwritten before use by the code that allocates it). -/
def npEmpty (sh : List Nat) : NDArray := ⟨sh, List.replicate sh.prod 0⟩

/-- Embedding of `x[i]` for a multi-index `i` over leading axes: the sub-array of the
remaining trailing axes (a view, read here by value). -/
def takeSlice (x : NDArray) (i : List Nat) : NDArray :=
  ⟨x.shape.drop i.length, (x.data.drop (flatIndex x.shape i)).take (x.shape.drop i.length).prod⟩

/-- Embedding of `x[i] = v` for a multi-index `i` over leading axes: overwrite the
corresponding row-major block of the data. -/
def setSlice (x : NDArray) (i : List Nat) (v : NDArray) : NDArray :=
  ⟨x.shape, (x.data.take (flatIndex x.shape i)) ++ v.data ++
      (x.data.drop (flatIndex x.shape i + v.data.length))⟩

/-- Expansion of a mixed integer/`Ellipsis` index tuple (`none` = `Ellipsis`)
against a rank: the first `Ellipsis` expands to as many full slices as needed,
later ones count as a single full slice each (the era's NumPy behaviour). -/
def expandMixed : Nat → List (Option Nat) → List (Option Nat)
  | ndim, [] => List.replicate ndim none
  | ndim, none :: rest => List.replicate (ndim - rest.length) none ++ rest
  | ndim, some n :: rest => some n :: expandMixed (ndim - 1) rest

/-- The axes kept (not consumed by an integer) by an expanded mixed index. -/
def keptShape (spec : List (Option Nat)) (sh : List Nat) : List Nat :=
  (List.zip spec sh).filterMap (fun p => match p.1 with | none => some p.2 | some _ => none)

/-- Rebuild a full multi-index from an expanded mixed index and an index `j`
into the kept axes. -/
def mergeIdx : List (Option Nat) → List Nat → List Nat
  | [], _ => []
  | some n :: rest, j => n :: mergeIdx rest j
  | none :: rest, jj :: j => jj :: mergeIdx rest j
  | none :: rest, [] => 0 :: mergeIdx rest []

/-- Embedding of `x[items]` for a mixed integer/`Ellipsis` tuple. -/
def getMixed (x : NDArray) (items : List (Option Nat)) : NDArray :=
  let spec := expandMixed x.shape.length items
  let ksh := keptShape spec x.shape
  ⟨ksh, (nested_iterator ksh).map (fun j => x.get (mergeIdx spec j))⟩

/-- Overwrite one entry of an array. -/
def NDArray.setAt (x : NDArray) (idx : List Nat) (v : ℚ) : NDArray :=
  ⟨x.shape, x.data.set (flatIndex x.shape idx) v⟩

/-- Right-aligned broadcast of an operand shape against a result index: size-1
axes read position 0, leading axes of the result missing from the operand are
dropped. -/
def bcastIdx (sh idx : List Nat) : List Nat :=
  List.zipWith (fun sz i => if sz = 1 then 0 else i) sh (idx.drop (idx.length - sh.length))

/-- NumPy broadcasting of two shapes, right-aligned, on reversed lists. -/
def bcastRev : List Nat → List Nat → Option (List Nat)
  | [], t => some t
  | s, [] => some s
  | a :: s, b :: t =>
    (bcastRev s t).bind (fun r =>
      if a = b then some (a :: r)
      else if a = 1 then some (b :: r)
      else if b = 1 then some (a :: r)
      else none)

/-- NumPy broadcasting of two shapes (`none` when incompatible). -/
def broadcastShapes (s t : List Nat) : Option (List Nat) :=
  (bcastRev s.reverse t.reverse).map List.reverse

/-- Embedding of `x[items] = v` for a mixed integer/`Ellipsis` tuple, broadcasting `v` over
the selected region. -/
def setMixed (x : NDArray) (items : List (Option Nat)) (v : NDArray) : NDArray :=
  let spec := expandMixed x.shape.length items
  let ksh := keptShape spec x.shape
  (nested_iterator ksh).foldl
    (fun acc j => acc.setAt (mergeIdx spec j) (v.get (bcastIdx v.shape j))) x

/-- Embedding of `x.reshape(sh)` (row-major data unchanged). -/
def npReshape (x : NDArray) (sh : List Nat) : NDArray := ⟨sh, x.data⟩

/-- Embedding of `x.T`: reverse all axes. -/
def npT (x : NDArray) : NDArray :=
  ⟨x.shape.reverse, (nested_iterator x.shape.reverse).map (fun idx => x.get idx.reverse)⟩

/-- An opaque sparse Cholesky factor handle: the module only ever uses its
diagonal accessor `D()` (spec §6), here a list of scalars. -/
structure SparseFactor where
  D : List ℚ
deriving DecidableEq, Repr

/-- The operand of the factor-consuming operations: a dense `ndarray` or a
sparse factor handle (the `isinstance` dispatch in the source). -/
inductive CholInput where
  | dense (x : NDArray)
  | sparseF (f : SparseFactor)

/-- Embedding of `np.diag(x)`: build a diagonal matrix from a 1-D input, extract the
diagonal of a 2-D input, and fail on any other rank. -/
def npDiag (x : NDArray) : Except PyErr NDArray :=
  match x.shape with
  | [n] => Except.ok ⟨[n, n],
      (nested_iterator [n, n]).map (fun idx =>
        if idx.getD 0 0 = idx.getD 1 0 then x.get [idx.getD 0 0] else 0)⟩
  | [m, n] => Except.ok ⟨[min m n], (List.range (min m n)).map (fun k => x.get [k, k])⟩
  | _ => Except.error (PyErr.valueError "Input must be 1- or 2-d.")

/-- Embedding of `np.einsum(...ii->...i, U)`: the batched diagonal, one vector of diagonal
entries per trailing matrix. -/
def npDiagBatch (U : NDArray) : NDArray :=
  let bsh := U.shape.take (U.shape.length - 2)
  let n := U.shape.getLastD 0
  ⟨bsh ++ [n], (nested_iterator (bsh ++ [n])).map (fun idx => U.get (idx ++ [idx.getLastD 0]))⟩

/-- Embedding of `np.sum(x, axis=(-1,))`: sum out the last axis. -/
def npSumLast (x : NDArray) : NDArray :=
  ⟨x.shape.dropLast,
    (nested_iterator x.shape.dropLast).map (fun b =>
      ((List.range (x.shape.getLastD 0)).map (fun k => x.get (b ++ [k]))).sum)⟩

/-- Elementwise application of the external `np.log` (kept abstract: the dense
numeric library supplies `log`, spec §6). -/
def npLog (log : ℚ → ℚ) (x : NDArray) : NDArray := ⟨x.shape, x.data.map log⟩

/-- Embedding of `c * x` elementwise (scalar times array). -/
def npScale (c : ℚ) (x : NDArray) : NDArray := ⟨x.shape, x.data.map (fun a => c * a)⟩

/-- Elementwise binary ufunc with NumPy broadcasting. -/
def npBinop (f : ℚ → ℚ → ℚ) (x y : NDArray) : Except PyErr NDArray :=
  match broadcastShapes x.shape y.shape with
  | none => Except.error (PyErr.valueError "operands could not be broadcast together")
  | some sh => Except.ok ⟨sh, (nested_iterator sh).map (fun i =>
      f (x.get (bcastIdx x.shape i)) (y.get (bcastIdx y.shape i)))⟩

/-- Embedding of `A[..., np.newaxis]`: append a size-1 axis (row-major data unchanged). -/
def npExpandLast (x : NDArray) : NDArray := ⟨x.shape ++ [1], x.data⟩

/-- Embedding of `B[..., np.newaxis, :]`: insert a size-1 axis before the last one
(row-major data unchanged). -/
def npExpandPenult (x : NDArray) : NDArray :=
  ⟨x.shape.dropLast ++ [1, x.shape.getLastD 1], x.data⟩

/-! ## The embedded module functions -/

/-- Dense branch of `chol` (lines 42–57).  `C = np.atleast_2d(C)`, allocate
`U = np.empty(np.shape(C))`, and for every batch index fill `U[i]` with
`linalg.cho_factor(C[i])[0]`; a `LinAlgError` from the factorization primitive
(modelled as `none`) aborts the whole call with
`Exception("Matrix not positive definite")`.  `choFactorP` is the external
single-matrix Cholesky primitive (spec §4.3 `factorize`). -/
def chol (choFactorP : NDArray → Option NDArray) (C : NDArray) : Except PyErr NDArray :=
  let C := atleast_2d C
  (nested_iterator (C.shape.take (C.shape.length - 2))).foldlM
    (fun U i =>
      match choFactorP (takeSlice C i) with
      | some F => Except.ok (setSlice U i F)
      | none => Except.error (PyErr.exception "Matrix not positive definite"))
    (npEmpty C.shape)

/-- Dense (`isinstance(U, np.ndarray)`) branch of `chol_solve` (lines 59–113).
The body is translated statement by statement; note that the very first
statement after `U = np.atleast_2d(U)` is `B = np.atleast_1d(B)` (line 66),
whose right-hand side reads the local `B` that is only being assigned by this
very statement (the parameter is lower-case `b`), and that `if out == None:`
(line 77) reads the local `out` that is only assigned inside that branch;
`broadcasted_shape` (line 79) is not defined in the module at all.
`choSolveP` is the external `linalg.cho_solve` primitive. -/
def chol_solve (choSolveP : NDArray → NDArray → NDArray) (U b : NDArray) :
    Except PyErr NDArray := do
  -- `if sparse.issparse(b): b = b.toarray()` — right-hand sides are dense here
  let _b := b
  let U := atleast_2d U
  -- `B = np.atleast_1d(B)`: the initializer reads the unassigned local `B`
  let B ← pyName (none : Option NDArray) "B"
  let B := atleast_1d B
  let sh_u := U.shape.take (U.shape.length - 2)
  let sh_b := B.shape.take (B.shape.length - 1)
  let l_u := sh_u.length
  let l_b := sh_b.length
  let ind_b : List (Option Nat) := List.replicate l_b (none : Option Nat)
  let _l_min := min l_u l_b
  let jnd_b := jndB sh_u sh_b
  -- `if out == None:` reads the local `out`, assigned only inside this branch
  let _out0 ← pyName (none : Option NDArray) "out"
  -- `sh = broadcasted_shape(sh_u, sh_b)`: name not defined in the module
  let bs ← pyName (none : Option (List Nat → List Nat → List Nat)) "broadcasted_shape"
  let sh := bs sh_u sh_b
  let out : NDArray := npZeros (sh ++ B.shape.drop (B.shape.length - 1))
  let st ← (nested_iterator (U.shape.take (U.shape.length - 2))).foldlM
    (fun (st : List (Option Nat) × NDArray) i => do
      let (ind_b, out) := st
      -- `for j in jnd_b: ind_b[j] = i[j]`
      let ind_b := pinIndB ind_b jnd_b i
      -- `b = B[tuple(ind_b) + (Ellipsis,)]`
      let bI := getMixed B (ind_b ++ [none])
      let orig_shape := bI.shape
      -- `if b.ndim > 1: b = b.reshape((-1, b.shape[-1]))`
      let bI := if bI.shape.length > 1 then
          npReshape bI [bI.data.length / bI.shape.getLastD 1, bI.shape.getLastD 1]
        else bI
      let ind_out := if ind_b.length < sh.length then
          (none : Option Nat) :: (ind_b ++ [none])
        else ind_b ++ [none]
      -- `out[ind_out] = linalg.cho_solve((U[i], False), b.T).T.reshape(orig_shape)`
      let solved := npReshape (npT (choSolveP (takeSlice U i) (npT bI))) orig_shape
      pure (ind_b, setMixed out ind_out solved))
    (ind_b, out)
  return st.2

/-- Embedding of `np.tile(np.identity(n), bsh + (1, 1))`: one identity matrix per batch
index. -/
def npTileIdentity (n : Nat) (bsh : List Nat) : NDArray :=
  ⟨bsh ++ [n, n],
    (nested_iterator bsh).flatMap (fun _ =>
      (nested_iterator [n, n]).map (fun idx =>
        if idx.getD 0 0 = idx.getD 1 0 then 1 else 0))⟩

/-- Dense branch of `chol_inv` (lines 121–131): allocate
`V = np.tile(np.identity(n), batch + (1,1))` and solve each slice against the
identity via `linalg.cho_solve` (`choSolveP`). -/
def chol_inv (choSolveP : NDArray → NDArray → NDArray) (U : NDArray) : NDArray :=
  let bsh := U.shape.take (U.shape.length - 2)
  (nested_iterator bsh).foldl
    (fun V i => setSlice V i (choSolveP (takeSlice U i) (takeSlice V i)))
    (npTileIdentity (U.shape.getLastD 0) bsh)

/-- Embedding of `chol_logdet` (lines 140–146).  Dense: `2*np.sum(np.log(np.diag(U)))`.
The `elif isinstance(U, cholmod.Factor)` arm evaluates the name `cholmod`,
whose import is commented out (line 37), so any non-`ndarray` operand raises
`NameError` before the arm body `np.sum(np.log(U.D()))` can run. -/
def chol_logdet (log : ℚ → ℚ) (U : CholInput) : Except PyErr ℚ :=
  match U with
  | CholInput.dense x => (npDiag x).map (fun d => 2 * (d.data.map log).sum)
  | CholInput.sparseF _ => Except.error (PyErr.nameError "cholmod")

/-- The body of the unreachable sparse arm of `chol_logdet` (line 144):
`np.sum(np.log(U.D()))` — the sum of logs of the factor's diagonal entries,
not doubled. -/
def chol_logdet_sparse_body (log : ℚ → ℚ) (F : SparseFactor) : ℚ :=
  (F.D.map log).sum

/-- Embedding of `logdet_chol` (lines 148–153).  Dense:
`2*np.sum(np.log(np.einsum(...ii->...i, U)), axis=(-1,))`.  The sparse arm
again evaluates the undefined name `cholmod` first. -/
def logdet_chol (log : ℚ → ℚ) (U : CholInput) : Except PyErr NDArray :=
  match U with
  | CholInput.dense x => Except.ok (npScale 2 (npSumLast (npLog log (npDiagBatch x))))
  | CholInput.sparseF _ => Except.error (PyErr.nameError "cholmod")

/-- Embedding of `m_solve_triangular` (lines 155–212), translated statement by statement.
After the shape bookkeeping it evaluates
`sh = broadcasted_shape(sh_u, sh_b)` (line 169); `broadcasted_shape` is
neither defined in the module nor imported (line 39 imports only
`nested_iterator` from `.utils`), so the lookup raises `NameError`.
`solveTriP` is the external `linalg.solve_triangular` primitive. -/
def m_solve_triangular (solveTriP : NDArray → NDArray → NDArray) (U B : NDArray) :
    Except PyErr NDArray := do
  let U := atleast_2d U
  let B := atleast_1d B
  let sh_u := U.shape.take (U.shape.length - 2)
  let sh_b := B.shape.take (B.shape.length - 1)
  let l_u := sh_u.length
  let l_b := sh_b.length
  let ind_b : List (Option Nat) := List.replicate l_b (none : Option Nat)
  let _l_min := min l_u l_b
  let jnd_b := jndB sh_u sh_b
  -- `sh = broadcasted_shape(sh_u, sh_b)`: the name is not defined here
  let bs ← pyName (none : Option (List Nat → List Nat → List Nat)) "broadcasted_shape"
  let sh := bs sh_u sh_b
  let out : NDArray := npZeros (sh ++ B.shape.drop (B.shape.length - 1))
  let st ← (nested_iterator (U.shape.take (U.shape.length - 2))).foldlM
    (fun (st : List (Option Nat) × NDArray) i => do
      let (ind_b, out) := st
      let ind_b := pinIndB ind_b jnd_b i
      let bI := getMixed B (ind_b ++ [none])
      let orig_shape := bI.shape
      let bI := if bI.shape.length > 1 then
          npReshape bI [bI.data.length / bI.shape.getLastD 1, bI.shape.getLastD 1]
        else bI
      let ind_out := if ind_b.length < sh.length then
          (none : Option Nat) :: (ind_b ++ [none])
        else ind_b ++ [none]
      let solved := npReshape (npT (solveTriP (takeSlice U i) (npT bI))) orig_shape
      pure (ind_b, setMixed out ind_out solved))
    (ind_b, out)
  return st.2

/-- Embedding of `m_outer` (lines 218–222): `A[..., np.newaxis] * B[..., np.newaxis, :]`
with full broadcasting. -/
def m_outer (A B : NDArray) : Except PyErr NDArray :=
  npBinop (· * ·) (npExpandLast A) (npExpandPenult B)

/-- Embedding of `m_dot` (lines 224–232): `np.einsum(...ik,...k->...i, A, b)` — the batched
matrix-vector product, trailing axes `(M, N)` of `A` against trailing axis `N`
of `b`, leading batch axes broadcast. -/
def m_dot (A b : NDArray) : Except PyErr NDArray :=
  let shA := A.shape.take (A.shape.length - 2)
  let m := A.shape.getD (A.shape.length - 2) 0
  let kA := A.shape.getLastD 0
  let shb := b.shape.take (b.shape.length - 1)
  let kb := b.shape.getLastD 0
  if kA = kb then
    match broadcastShapes shA shb with
    | none => Except.error (PyErr.valueError "operands could not be broadcast together")
    | some bsh => Except.ok ⟨bsh ++ [m],
        (nested_iterator (bsh ++ [m])).map (fun idx =>
          ((List.range kA).map (fun k =>
            A.get (bcastIdx shA idx.dropLast ++ [idx.getLastD 0, k]) *
              b.get (bcastIdx shb idx.dropLast ++ [k]))).sum)⟩
  else Except.error (PyErr.valueError "einsum: dimension mismatch")

/-! ## Heap-level view, for the no-input-mutation property

Arrays live in buffers; an operation receives the addresses of its operands,
allocates fresh buffers for its outputs, and performs its subscript
assignments (`U[i] = …`, `V[i] = …`) as writes to the buffer it allocated.
The frame claim is that the buffers that existed before the call are unchanged
afterwards. -/

/-- A heap of array buffers. -/
abbrev Heap := List NDArray

/-- Read the buffer at an address. -/
def hRead (h : Heap) (a : Nat) : NDArray := h.getD a ⟨[], []⟩

/-- Allocate a fresh buffer, returning its address. -/
def hAlloc (h : Heap) (x : NDArray) : Heap × Nat := (h ++ [x], h.length)

/-- Overwrite the buffer at an address. -/
def hWrite (h : Heap) (a : Nat) (x : NDArray) : Heap := h.set a x

/-- Heap-level `chol` (dense branch): `U = np.empty(...)` allocates a fresh
buffer and each `U[i] = linalg.cho_factor(C[i])[0]` writes into it. -/
def cholH (choFactorP : NDArray → Option NDArray) (h : Heap) (ca : Nat) :
    Except PyErr (Heap × Nat) :=
  let C := atleast_2d (hRead h ca)
  let hu := hAlloc h (npEmpty C.shape)
  ((nested_iterator (C.shape.take (C.shape.length - 2))).foldlM
      (fun hp i =>
        match choFactorP (takeSlice C i) with
        | some F => Except.ok (hWrite hp hu.2 (setSlice (hRead hp hu.2) i F))
        | none => Except.error (PyErr.exception "Matrix not positive definite"))
      hu.1).map
    (fun hp => (hp, hu.2))

/-- Heap-level `chol_inv` (dense branch): `V = np.tile(np.identity(n), ...)`
allocates a fresh buffer and each `V[i] = linalg.cho_solve(...)` writes into
it (with `overwrite_b=True` the solver may scribble on `V[i]` itself — still
the fresh buffer, never the input `U`). -/
def chol_invH (choSolveP : NDArray → NDArray → NDArray) (h : Heap) (ua : Nat) :
    Heap × Nat :=
  let U := hRead h ua
  let bsh := U.shape.take (U.shape.length - 2)
  let hv := hAlloc h (npTileIdentity (U.shape.getLastD 0) bsh)
  ((nested_iterator bsh).foldl
      (fun hp i =>
        hWrite hp hv.2
          (setSlice (hRead hp hv.2) i
            (choSolveP (takeSlice U i) (takeSlice (hRead hp hv.2) i))))
      hv.1,
    hv.2)

/-- Heap-level `chol_logdet` on a dense operand: a pure expression over the
input buffer returning a scalar; no buffer is written. -/
def chol_logdetH (log : ℚ → ℚ) (h : Heap) (a : Nat) : Except PyErr (Heap × ℚ) :=
  (chol_logdet log (CholInput.dense (hRead h a))).map (fun r => (h, r))

/-- Heap-level `logdet_chol` on a dense operand: the result array is a fresh
allocation. -/
def logdet_cholH (log : ℚ → ℚ) (h : Heap) (a : Nat) : Except PyErr (Heap × Nat) :=
  (logdet_chol log (CholInput.dense (hRead h a))).map (fun r => hAlloc h r)

/-- Heap-level `m_outer`: the result array is a fresh allocation. -/
def m_outerH (h : Heap) (aA aB : Nat) : Except PyErr (Heap × Nat) :=
  (m_outer (hRead h aA) (hRead h aB)).map (fun r => hAlloc h r)

/-- Heap-level `m_dot`: the result array is a fresh allocation. -/
def m_dotH (h : Heap) (aA ab : Nat) : Except PyErr (Heap × Nat) :=
  (m_dot (hRead h aA) (hRead h ab)).map (fun r => hAlloc h r)

/-! ## Spec-side reference definitions -/

/-- Modelled from the spec (§4.3 `factorize`, §3 Cholesky Factor): the
contract of the external dense factorization primitive — same shape as its
input, upper-triangular with zeros in the opposite triangle, and
`Factorᵗ·Factor` reconstructs the input matrix. -/
def IsCholFactor (M F : NDArray) : Prop :=
  F.shape = M.shape ∧
  (∀ r c, c < r → F.get [r, c] = 0) ∧
  (∀ r c, r < M.shape.getD 0 0 → c < M.shape.getD 0 0 →
    M.get [r, c] =
      ((List.range (M.shape.getD 0 0)).map (fun k => F.get [k, r] * F.get [k, c])).sum)

/-- Ordinary single matrix-vector product, written from the spec's words
(§4.5 `matvec_batch` reference semantics: `result[i] = sum over k of
M[i, k] * v[k]`), for comparison against the batched `m_dot`. -/
def specMatvec (M v : NDArray) : NDArray :=
  ⟨[M.shape.getD 0 0],
    (List.range (M.shape.getD 0 0)).map (fun i =>
      ((List.range (M.shape.getLastD 0)).map (fun k => M.get [i, k] * v.get [k])).sum)⟩

/-! ## Enumeration and flat-index lemmas -/

theorem validIdx_nil : ValidIdx [] [] := List.Forall₂.nil

theorem flatIndex_lt {idx sh : List Nat} (h : ValidIdx idx sh) :
    flatIndex sh idx < sh.prod := by
  induction h with
  | nil => simp [flatIndex]
  | cons hab h ih =>
    rename_i i s is ss
    simp only [flatIndex, List.prod_cons]
    calc i * ss.prod + flatIndex ss is < i * ss.prod + ss.prod := by omega
    _ = (i + 1) * ss.prod := by ring
    _ ≤ s * ss.prod := Nat.mul_le_mul_right _ hab

theorem range_flatMap_mul (L : Nat) : ∀ s : Nat,
    (List.range s).flatMap (fun j => (List.range L).map (fun r => j * L + r))
      = List.range (s * L) := by
  intro s
  induction s with
  | zero => simp
  | succ s ihs =>
    rw [List.range_succ, List.flatMap_append, ihs, Nat.succ_mul, List.range_add]
    simp

theorem nested_map_flatIndex (sh : List Nat) :
    (nested_iterator sh).map (flatIndex sh) = List.range sh.prod := by
  induction sh with
  | nil => simp only [nested_iterator, flatIndex, List.map_cons, List.map_nil]; decide
  | cons s ss ih =>
    simp only [nested_iterator, List.map_flatMap, List.map_map]
    have hstep : ∀ j : Nat,
        ((nested_iterator ss).map (flatIndex (s :: ss) ∘ (fun t => j :: t)))
          = (List.range ss.prod).map (fun r => j * ss.prod + r) := by
      intro j
      have hc : (flatIndex (s :: ss) ∘ (fun t => j :: t))
          = (fun r => j * ss.prod + r) ∘ flatIndex ss := by
        funext t; simp [flatIndex, Function.comp]
      rw [hc, ← List.map_map, ih]
    simp only [hstep]
    rw [List.prod_cons]
    exact range_flatMap_mul ss.prod s

theorem length_nested (sh : List Nat) : (nested_iterator sh).length = sh.prod := by
  have := congrArg List.length (nested_map_flatIndex sh)
  simpa using this

theorem mem_nested {idx sh : List Nat} :
    idx ∈ nested_iterator sh ↔ ValidIdx idx sh := by
  induction sh generalizing idx with
  | nil =>
    cases idx with
    | nil => simp [nested_iterator, ValidIdx]
    | cons i is =>
      simp only [nested_iterator, List.mem_singleton, ValidIdx]
      constructor
      · intro h; cases h
      · intro h; cases h
  | cons s ss ih =>
    cases idx with
    | nil =>
      simp only [nested_iterator, List.mem_flatMap, List.mem_map, ValidIdx]
      constructor
      · rintro ⟨j, _, t, _, h⟩; cases h
      · intro h; cases h
    | cons i is =>
      simp only [nested_iterator, List.mem_flatMap, List.mem_map, List.mem_range, ValidIdx]
      constructor
      · rintro ⟨j, hj, t, ht, heq⟩
        cases heq
        exact List.Forall₂.cons hj (ih.mp ht)
      · intro h
        cases h with
        | cons hab h => exact ⟨i, hab, is, ih.mpr h, rfl⟩

theorem getElem?_flatMap_range {β : Type _} (g : Nat → List β) (L : Nat)
    (hg : ∀ j, (g j).length = L) :
    ∀ (s i r : Nat), i < s → r < L →
      ((List.range s).flatMap g)[i * L + r]? = (g i)[r]? := by
  have hlen : ∀ s, ((List.range s).flatMap g).length = s * L := by
    intro s
    induction s with
    | zero => simp
    | succ s ihs =>
      rw [List.range_succ, List.flatMap_append]
      simp [ihs, hg, Nat.succ_mul]
  intro s
  induction s with
  | zero => intro i r hi _; omega
  | succ s ihs =>
    intro i r hi hr
    rw [List.range_succ, List.flatMap_append]
    rcases Nat.lt_or_ge i s with hlt | hge
    · rw [List.getElem?_append_left
        (by
          rw [hlen s]
          calc i * L + r < i * L + L := by omega
          _ = (i + 1) * L := by ring
          _ ≤ s * L := Nat.mul_le_mul_right _ hlt)]
      exact ihs i r hlt hr
    · have hi : i = s := by omega
      subst hi
      rw [List.getElem?_append_right (by rw [hlen i]; omega)]
      simp [hlen]

theorem nested_getElem? {idx sh : List Nat} (h : ValidIdx idx sh) :
    (nested_iterator sh)[flatIndex sh idx]? = some idx := by
  induction h with
  | nil => rfl
  | cons hab h ih =>
    rename_i i s is ss
    simp only [nested_iterator, flatIndex]
    rw [getElem?_flatMap_range _ (ss.prod)
        (fun j => by simp [length_nested]) s i (flatIndex ss is) hab (flatIndex_lt h)]
    simp [ih]

theorem get_mk_map {sh idx : List Nat} (f : List Nat → ℚ) (h : ValidIdx idx sh) :
    NDArray.get ⟨sh, (nested_iterator sh).map f⟩ idx = f idx := by
  simp only [NDArray.get, List.getD_eq_getElem?_getD, List.getElem?_map,
    nested_getElem? h]
  rfl

theorem flatIndex_append_add :
    ∀ (i : List Nat) (sh j : List Nat),
      flatIndex sh (i ++ j) = flatIndex sh i + flatIndex (sh.drop i.length) j := by
  intro i
  induction i with
  | nil => intro sh j; simp [flatIndex]
  | cons i0 it ih =>
    intro sh j
    cases sh with
    | nil => cases j <;> simp [flatIndex]
    | cons s ss =>
      simp only [List.cons_append, flatIndex, List.length_cons, List.drop_succ_cons,
        List.append_eq]
      rw [ih ss j]
      omega

theorem flatIndex_prefix_mul :
    ∀ (i bsh : List Nat) (csh : List Nat), i.length = bsh.length →
      flatIndex (bsh ++ csh) i = flatIndex bsh i * csh.prod := by
  intro i
  induction i with
  | nil =>
    intro bsh csh hlen
    cases bsh with
    | nil => simp [flatIndex]
    | cons b bs => simp at hlen
  | cons i0 it ih =>
    intro bsh csh hlen
    cases bsh with
    | nil => simp at hlen
    | cons b bs =>
      simp only [List.cons_append, flatIndex, List.prod_append, List.prod_cons,
        List.append_eq]
      rw [ih bs csh (by simpa using hlen)]
      ring

theorem nested_length_eq {bsh : List Nat} {i : List Nat}
    (h : i ∈ nested_iterator bsh) : i.length = bsh.length :=
  List.Forall₂.length_eq (mem_nested.mp h)

theorem takeSlice_shape {x : NDArray} {bsh csh i : List Nat}
    (hsh : x.shape = bsh ++ csh) (hlen : i.length = bsh.length) :
    (takeSlice x i).shape = csh := by
  simp [takeSlice, hsh, hlen, List.drop_left]

theorem get_takeSlice {x : NDArray} {bsh csh i j : List Nat}
    (hsh : x.shape = bsh ++ csh) (hlen : i.length = bsh.length)
    (hj : ValidIdx j csh) :
    (takeSlice x i).get j = x.get (i ++ j) := by
  have hshape : (takeSlice x i).shape = csh := takeSlice_shape hsh hlen
  simp only [NDArray.get, takeSlice] at hshape ⊢
  rw [hshape]
  have hjlt : flatIndex csh j < csh.prod := flatIndex_lt hj
  rw [List.getD_eq_getElem?_getD, List.getD_eq_getElem?_getD]
  rw [List.getElem?_take, if_pos (by simpa [hsh, hlen, List.drop_left] using hjlt)]
  rw [List.getElem?_drop]
  rw [flatIndex_append_add i x.shape j, hsh, hlen, List.drop_left]

/-! ## The slice-write loop of `chol` -/

theorem foldl_setSlice (F : List Nat → NDArray) (L : Nat) :
    ∀ (is : List (List Nat)) (U : NDArray) (k : Nat),
      (∀ i ∈ is, (F i).data.length = L) →
      (∀ (m : Nat) (hm : m < is.length), flatIndex U.shape is[m] = (k + m) * L) →
      (k + is.length) * L ≤ U.data.length →
      (is.foldl (fun U i => setSlice U i (F i)) U).shape = U.shape ∧
      (is.foldl (fun U i => setSlice U i (F i)) U).data
        = U.data.take (k * L) ++ (is.map (fun i => (F i).data)).flatten
            ++ U.data.drop ((k + is.length) * L) := by
  intro is
  induction is with
  | nil =>
    intro U k _ _ _
    refine ⟨rfl, ?_⟩
    simp [List.take_append_drop]
  | cons i it ih =>
    intro U k hlenF hoff hbound
    have hoff0 : flatIndex U.shape i = k * L := by
      have := hoff 0 (by simp)
      simpa using this
    have hFi : (F i).data.length = L := hlenF i (by simp)
    have hkL : k * L ≤ U.data.length := by
      calc k * L ≤ (k + (i :: it).length) * L := Nat.mul_le_mul_right _ (by omega)
      _ ≤ U.data.length := hbound
    have hk1L : k * L + L ≤ U.data.length := by
      calc k * L + L = (k + 1) * L := by ring
      _ ≤ (k + (i :: it).length) * L := Nat.mul_le_mul_right _ (by simp)
      _ ≤ U.data.length := hbound
    set U1 := setSlice U i (F i) with hU1
    have hU1shape : U1.shape = U.shape := rfl
    have htake : (U.data.take (k * L)).length = k * L := by
      rw [List.length_take]; omega
    have hU1data : U1.data
        = (U.data.take (k * L) ++ (F i).data) ++ U.data.drop (k * L + L) := by
      rw [hU1]
      simp only [setSlice]
      rw [hoff0, hFi, List.append_assoc]
    have hU1len : U1.data.length = U.data.length := by
      rw [hU1data]
      simp only [List.length_append, List.length_take, List.length_drop, hFi]
      omega
    have hpref : ((U.data.take (k * L)) ++ (F i).data).length = (k + 1) * L := by
      simp only [List.length_append, htake, hFi]; ring
    have ihres := ih U1 (k + 1)
      (fun j hj => hlenF j (List.mem_cons_of_mem _ hj))
      (by
        intro m hm
        rw [hU1shape]
        have := hoff (m + 1) (by simpa using Nat.succ_lt_succ hm)
        simpa [Nat.add_assoc, Nat.add_comm 1 m] using this)
      (by
        rw [hU1len]
        calc (k + 1 + it.length) * L = (k + (i :: it).length) * L := by
              simp only [List.length_cons]; ring
        _ ≤ U.data.length := hbound)
    simp only [List.foldl_cons]
    rw [← hU1]
    refine ⟨by rw [ihres.1, hU1shape], ?_⟩
    rw [ihres.2]
    have e1 : U1.data.take ((k + 1) * L) = U.data.take (k * L) ++ (F i).data := by
      rw [hU1data, ← hpref, List.take_left]
    have e2 : U1.data.drop ((k + 1 + it.length) * L)
        = U.data.drop ((k + (i :: it).length) * L) := by
      rw [hU1data]
      have harith : (k + 1 + it.length) * L
          = ((U.data.take (k * L)) ++ (F i).data).length + it.length * L := by
        rw [hpref]; ring
      rw [harith, List.drop_append, List.drop_drop]
      congr 1
      simp only [List.length_cons]
      ring
    rw [e1, e2]
    simp [List.append_assoc]

theorem flatten_chunk :
    ∀ (bs : List (List ℚ)) (L k : Nat), (∀ c ∈ bs, c.length = L) →
      ∀ (hk : k < bs.length), (bs.flatten.drop (k * L)).take L = bs[k] := by
  intro bs
  induction bs with
  | nil => intro L k _ hk; simp at hk
  | cons c bt ih =>
    intro L k hlen hk
    cases k with
    | zero =>
      have hc : c.length = L := hlen c (by simp)
      simp only [List.flatten_cons, Nat.zero_mul, List.drop_zero]
      rw [← hc, List.take_left]
      simp
    | succ k =>
      have hc : c.length = L := hlen c (by simp)
      simp only [List.flatten_cons]
      have harith : (k + 1) * L = c.length + k * L := by rw [hc]; ring
      rw [harith, List.drop_append]
      have := ih L k (fun d hd => hlen d (List.mem_cons_of_mem _ hd))
        (by simpa using Nat.lt_of_succ_lt_succ hk)
      rw [this]
      simp

theorem atleast_2d_of_rank2 {x : NDArray} (h : 2 ≤ x.shape.length) :
    atleast_2d x = x := by
  rcases x with ⟨sh, d⟩
  match sh with
  | [] => simp at h
  | [n] => simp at h
  | a :: b :: t => rfl

theorem flatIndex_nested_getElem (bsh : List Nat) (m : Nat)
    (hm : m < (nested_iterator bsh).length) :
    flatIndex bsh (nested_iterator bsh)[m] = m := by
  have h1 : ((nested_iterator bsh).map (flatIndex bsh))[m]?
      = some (flatIndex bsh (nested_iterator bsh)[m]) := by
    rw [List.getElem?_map, List.getElem?_eq_getElem hm]
    rfl
  rw [nested_map_flatIndex] at h1
  have h2 : (List.range bsh.prod)[m]? = some m :=
    List.getElem?_range (by
      have := length_nested bsh
      omega)
  rw [h1] at h2
  exact (Option.some.injEq _ _ ▸ h2).symm ▸ rfl

theorem nested_getElem_of_mem {bsh i : List Nat} (hi : i ∈ nested_iterator bsh)
    (hlt : flatIndex bsh i < (nested_iterator bsh).length) :
    (nested_iterator bsh)[flatIndex bsh i] = i := by
  have h := nested_getElem? (mem_nested.mp hi)
  rwa [List.getElem?_eq_getElem hlt, Option.some.injEq] at h

theorem chol_foldlM_ok (cf : NDArray → Option NDArray) (C : NDArray)
    (F : List Nat → NDArray) :
    ∀ (is : List (List Nat)) (U : NDArray),
      (∀ i ∈ is, cf (takeSlice C i) = some (F i)) →
      (is.foldlM (fun U i =>
          match cf (takeSlice C i) with
          | some Fm => Except.ok (setSlice U i Fm)
          | none => Except.error (PyErr.exception "Matrix not positive definite")) U
        : Except PyErr NDArray)
      = Except.ok (is.foldl (fun U i => setSlice U i (F i)) U) := by
  intro is
  induction is with
  | nil => intro U _; rfl
  | cons i it ih =>
    intro U h
    rw [List.foldlM_cons, h i (List.mem_cons_self i it)]
    exact ih (setSlice U i (F i)) (fun j hj => h j (List.mem_cons_of_mem _ hj))

theorem chol_foldlM_err (cf : NDArray → Option NDArray) (C : NDArray) :
    ∀ (is : List (List Nat)) (U : NDArray),
      (∃ i ∈ is, cf (takeSlice C i) = none) →
      (is.foldlM (fun U i =>
          match cf (takeSlice C i) with
          | some Fm => Except.ok (setSlice U i Fm)
          | none => Except.error (PyErr.exception "Matrix not positive definite")) U
        : Except PyErr NDArray)
      = Except.error (PyErr.exception "Matrix not positive definite") := by
  intro is
  induction is with
  | nil =>
    rintro U ⟨i, hi, _⟩
    simp at hi
  | cons i it ih =>
    rintro U ⟨j, hj, hje⟩
    rw [List.foldlM_cons]
    rcases List.mem_cons.mp hj with rfl | hjt
    · rw [hje]
      rfl
    · cases hcf : cf (takeSlice C i) with
      | none => rfl
      | some Fm => exact ih (setSlice U i Fm) ⟨j, hjt, hje⟩

theorem chol_ok_characterization (cf : NDArray → Option NDArray) (C : NDArray)
    (bsh : List Nat) (m n : Nat)
    (hsh : C.shape = bsh ++ [m, n])
    (F : List Nat → NDArray)
    (hF : ∀ i ∈ nested_iterator bsh, cf (takeSlice C i) = some (F i))
    (hFlen : ∀ i ∈ nested_iterator bsh, (F i).data.length = m * n) :
    ∃ U, chol cf C = Except.ok U ∧ U.shape = C.shape ∧
      ∀ i ∈ nested_iterator bsh,
        (takeSlice U i).shape = [m, n] ∧ (takeSlice U i).data = (F i).data := by
  have hrank : 2 ≤ C.shape.length := by rw [hsh]; simp
  have h2d : atleast_2d C = C := atleast_2d_of_rank2 hrank
  have hbtake : C.shape.take (C.shape.length - 2) = bsh := by
    rw [hsh]
    have : (bsh ++ [m, n]).length - 2 = bsh.length := by simp
    rw [this, List.take_left]
  have hL : ([m, n] : List Nat).prod = m * n := by simp
  have hprodsh : C.shape.prod = bsh.prod * (m * n) := by
    rw [hsh, List.prod_append, hL]
  set U0 := npEmpty C.shape with hU0
  have hU0shape : U0.shape = C.shape := rfl
  have hU0len : U0.data.length = bsh.prod * (m * n) := by
    simp [hU0, npEmpty, hprodsh]
  have hfold := foldl_setSlice F (m * n) (nested_iterator bsh) U0 0
    hFlen
    (by
      intro mm hmm
      rw [hU0shape, hsh]
      rw [flatIndex_prefix_mul _ _ _ (by
        exact nested_length_eq (List.getElem_mem hmm))]
      rw [hL, flatIndex_nested_getElem bsh mm hmm]
      ring)
    (by
      rw [hU0len, Nat.zero_add, length_nested])
  have hchol : chol cf C
      = Except.ok ((nested_iterator bsh).foldl (fun U i => setSlice U i (F i)) U0) := by
    show (nested_iterator ((atleast_2d C).shape.take ((atleast_2d C).shape.length - 2))).foldlM
        _ (npEmpty (atleast_2d C).shape) = _
    rw [h2d, hbtake]
    exact chol_foldlM_ok cf C F (nested_iterator bsh) U0 hF
  set U := (nested_iterator bsh).foldl (fun U i => setSlice U i (F i)) U0 with hU
  have hUshape : U.shape = C.shape := by rw [hU, hfold.1, hU0shape]
  have hUdata : U.data = ((nested_iterator bsh).map (fun i => (F i).data)).flatten := by
    rw [hU, hfold.2]
    rw [Nat.zero_mul, List.take_zero, Nat.zero_add]
    rw [List.drop_of_length_le (by rw [hU0len, length_nested])]
    simp
  refine ⟨U, hchol, hUshape, ?_⟩
  intro i hi
  have hival : ValidIdx i bsh := mem_nested.mp hi
  have hilen : i.length = bsh.length := List.Forall₂.length_eq hival
  have hUsh2 : U.shape = bsh ++ [m, n] := by rw [hUshape, hsh]
  refine ⟨takeSlice_shape hUsh2 hilen, ?_⟩
  show (U.data.drop (flatIndex U.shape i)).take (U.shape.drop i.length).prod = (F i).data
  rw [hUsh2, hilen, List.drop_left, hL]
  rw [flatIndex_prefix_mul _ _ _ hilen, hL]
  rw [hUdata]
  have hk : flatIndex bsh i < ((nested_iterator bsh).map (fun i => (F i).data)).length := by
    rw [List.length_map, length_nested]
    exact flatIndex_lt hival
  rw [flatten_chunk _ (m * n) (flatIndex bsh i)
      (by
        intro c hc
        rcases List.mem_map.mp hc with ⟨j, hj, rfl⟩
        exact hFlen j hj)
      hk]
  rw [List.getElem_map]
  exact congrArg (fun j => (F j).data) (nested_getElem_of_mem hi
    (by rw [length_nested]; exact flatIndex_lt hival))

/-! ## Aligned-axis classification lemmas -/

theorem mem_jndB_iff (sh_u sh_b : List Nat) (i : Int) :
    i ∈ jndB sh_u sh_b ↔
      -((min sh_u.length sh_b.length : Nat) : Int) ≤ i ∧ i < 0 ∧
        pyGetNeg sh_b i 0 = pyGetNeg sh_u i 0 := by
  set l : Nat := min sh_u.length sh_b.length with hl
  unfold jndB
  rw [← hl]
  rw [List.mem_filter, List.mem_map]
  clear_value l
  constructor
  · rintro ⟨⟨k, hk, hki⟩, heq⟩
    rw [List.mem_range] at hk
    rw [beq_iff_eq] at heq
    exact ⟨by omega, by omega, heq⟩
  · rintro ⟨h1, h2, heq⟩
    refine ⟨⟨(i + (l : Int)).toNat, ?_, ?_⟩, ?_⟩
    · rw [List.mem_range]; omega
    · omega
    · rw [beq_iff_eq]; exact heq

theorem pinIndB_getD :
    ∀ (js : List Int) (ind : List (Option Nat)) (i : List Nat) (p : Nat),
      p < ind.length →
      (∀ j ∈ js, -(ind.length : Int) ≤ j ∧ j < 0) →
      (pinIndB ind js i).getD p none
        = if ((p : Int) - ind.length) ∈ js then some (pyGetNeg i ((p : Int) - ind.length) 0)
          else ind.getD p none := by
  intro js
  induction js with
  | nil =>
    intro ind i p hp _
    simp [pinIndB]
  | cons j jt ih =>
    intro ind i p hp hrange
    obtain ⟨hj1, hj2⟩ := hrange j (List.mem_cons_self j jt)
    have hstep : pinIndB ind (j :: jt) i
        = pinIndB (ind.set (((ind.length : Int) + j).toNat) (some (pyGetNeg i j 0))) jt i := rfl
    set ind1 := ind.set (((ind.length : Int) + j).toNat) (some (pyGetNeg i j 0)) with hind1
    have hlen1 : ind1.length = ind.length := List.length_set ind _ _
    rw [hstep, ih ind1 i p (by omega) (fun j hj => by
      rw [hlen1]; exact hrange j (List.mem_cons_of_mem _ hj))]
    rw [hlen1]
    by_cases hmem : ((p : Int) - ind.length) ∈ jt
    · rw [if_pos hmem, if_pos (List.mem_cons_of_mem _ hmem)]
    · rw [if_neg hmem]
      by_cases hej : ((p : Int) - ind.length) = j
      · rw [if_pos (by rw [hej]; exact List.mem_cons_self j jt)]
        have hppos : (((ind.length : Int) + j).toNat) = p := by omega
        rw [hind1, hppos]
        rw [List.getD_eq_getElem?_getD, List.getElem?_set_self hp]
        rw [hej]
        rfl
      · rw [if_neg (by
          intro hc
          rcases List.mem_cons.mp hc with hc | hc
          · exact hej hc
          · exact hmem hc)]
        rw [hind1, List.getD_eq_getElem?_getD,
          List.getElem?_set_ne (by omega), ← List.getD_eq_getElem?_getD]

/-! ## The two dead solve paths -/

theorem chol_solve_raises (p : NDArray → NDArray → NDArray) (U b : NDArray) :
    chol_solve p U b = Except.error (PyErr.nameError "B") := rfl

theorem m_solve_triangular_raises (p : NDArray → NDArray → NDArray) (U B : NDArray) :
    m_solve_triangular p U B = Except.error (PyErr.nameError "broadcasted_shape") := rfl

/-! ## Shape bookkeeping helpers -/

theorem take_batch2 (bsh : List Nat) (m n : Nat) :
    (bsh ++ [m, n]).take ((bsh ++ [m, n]).length - 2) = bsh := by
  have h : (bsh ++ [m, n]).length - 2 = bsh.length := by simp
  rw [h, List.take_left]

theorem take_batch1 (sh : List Nat) (n : Nat) :
    (sh ++ [n]).take ((sh ++ [n]).length - 1) = sh := by
  have h : (sh ++ [n]).length - 1 = sh.length := by simp
  rw [h, List.take_left]

theorem getLastD_append2 (bsh : List Nat) (m n d : Nat) :
    (bsh ++ [m, n]).getLastD d = n := by
  have h : bsh ++ [m, n] = (bsh ++ [m]) ++ [n] := by simp
  rw [h, List.getLastD_concat]

theorem getD_penult (bsh : List Nat) (m n : Nat) :
    (bsh ++ [m, n]).getD ((bsh ++ [m, n]).length - 2) 0 = m := by
  have h : (bsh ++ [m, n]).length - 2 = bsh.length := by simp
  rw [h, List.getD_eq_getElem?_getD, List.getElem?_append_right (Nat.le_refl _)]
  simp

theorem validIdx_append {a b c d : List Nat} (h1 : ValidIdx a b) (h2 : ValidIdx c d) :
    ValidIdx (a ++ c) (b ++ d) := by
  induction h1 with
  | nil => exact h2
  | cons hab h ih => exact List.Forall₂.cons hab ih

theorem getD_replicate_none (n p : Nat) :
    (List.replicate n (none : Option Nat)).getD p none = none := by
  rw [List.getD_eq_getElem?_getD, List.getElem?_replicate]
  split <;> rfl

/-! ## Claim theorems -/

/-- Claim C1, counterexample: at the claim's own shapes — a factor batch `U` of
batch shape `(2,)` (here `N = 2`) and a right-hand-side batch `B` of batch
shape `(2, 5)` — `chol_solve` does not return a grouped solve of shape
`(2, 5, N)`: it raises the unbound-local `NameError` on `B`. -/
theorem c1_counterexample :
    chol_solve (fun _ r => r) ⟨[2, 2, 2], List.replicate 8 0⟩
      ⟨[2, 5, 2], List.replicate 20 0⟩
      = Except.error (PyErr.nameError "B") := rfl

/-- Claim C1 (amended): for every factor batch `U` with batch shape `(2,)` and
every right-hand-side batch `B` with batch shape `(2, 5)`, `chol_solve(U, B)`
raises a `NameError` (the unbound local `B` at line 66) before computing
anything, so no output of shape `(2, 5, N)` is produced. -/
theorem c1_amended_grouping_scenario_raises (p : NDArray → NDArray → NDArray)
    (U B : NDArray) (n : Nat)
    (_hU : U.shape = [2, n, n]) (_hB : B.shape = [2, 5, n]) :
    chol_solve p U B = Except.error (PyErr.nameError "B") :=
  chol_solve_raises p U B

theorem c1_witness :
    chol_solve (fun _ r => r) ⟨[2, 3, 3], List.replicate 18 1⟩
      ⟨[2, 5, 3], List.replicate 30 1⟩
      = Except.error (PyErr.nameError "B") :=
  c1_amended_grouping_scenario_raises (fun _ r => r) _ _ 3 rfl rfl

/-- Claim C2, counterexample: at the claim's own broadcasting-law scenario —
`U` a batch of three 2×2 identity factors (batch shape `(3,)`), `B` a single
shared right-hand-side set (batch shape `(1,)`) — `chol_solve` does not
return the batch of the three per-matrix solves: it raises the unbound-local
`NameError` on `B`. -/
theorem c2_counterexample :
    chol_solve (fun _ r => r)
      ⟨[3, 2, 2], [1, 0, 0, 1, 1, 0, 0, 1, 1, 0, 0, 1]⟩
      ⟨[1, 2], [1, 2]⟩
      = Except.error (PyErr.nameError "B") := rfl

/-- Claim C2 (amended): for every factor batch `U` with batch shape `(3,)`
and every right-hand-side batch `B` with batch shape `(1,)`, `chol_solve`
raises a `NameError` (the unbound local `B` at line 66) before computing
anything, so the looped per-matrix solve batch of shape `(3,)` is never
produced. -/
theorem c2_amended_broadcasting_scenario_raises (p : NDArray → NDArray → NDArray)
    (U B : NDArray) (n : Nat)
    (_hU : U.shape = [3, n, n]) (_hB : B.shape = [1, n]) :
    chol_solve p U B = Except.error (PyErr.nameError "B") :=
  chol_solve_raises p U B

theorem c2_witness :
    chol_solve (fun _ r => r) ⟨[3, 3, 3], List.replicate 27 2⟩
      ⟨[1, 3], List.replicate 3 2⟩
      = Except.error (PyErr.nameError "B") :=
  c2_amended_broadcasting_scenario_raises (fun _ r => r) _ _ 3 rfl rfl

/-- Claim C3: for every dense ndarray factor `U` and every right-hand side
`b`, `chol_solve(U, b)` raises a `NameError` before computing anything — the
dense branch reads the unbound locals `B` (line 66) and `out` (line 77), so
the dense solve path never returns a result. -/
theorem c3_chol_solve_dense_always_raises (p : NDArray → NDArray → NDArray)
    (U b : NDArray) :
    chol_solve p U b = Except.error (PyErr.nameError "B") :=
  chol_solve_raises p U b

/-- Claim C4: for every pair of inputs `(U, B)`, `m_solve_triangular(U, B)`
raises a `NameError`: it calls `broadcasted_shape`, which is neither defined
in the module nor imported (only `nested_iterator` is imported from
`.utils`), and that call is reached unconditionally before any solve. -/
theorem c4_m_solve_triangular_always_raises (p : NDArray → NDArray → NDArray)
    (U B : NDArray) :
    m_solve_triangular p U B = Except.error (PyErr.nameError "broadcasted_shape") :=
  m_solve_triangular_raises p U B

/-- Claim C5: for any two batch shapes `sh_u`, `sh_b`, the aligned-axis set
`jnd_b` computed by the solve routines is exactly the set of negative offsets
`i` in `range(-min(len(sh_u), len(sh_b)), 0)` with `sh_b[i] == sh_u[i]`; and
during iteration exactly the positions of `ind_b` named by those offsets are
pinned to the matching coordinate of the current `U` index, every other
position keeping `Ellipsis` (broadcast). -/
theorem c5_aligned_axis_classification (sh_u sh_b : List Nat) :
    (∀ i : Int, i ∈ jndB sh_u sh_b ↔
        -((min sh_u.length sh_b.length : Nat) : Int) ≤ i ∧ i < 0 ∧
          pyGetNeg sh_b i 0 = pyGetNeg sh_u i 0) ∧
    (∀ (i : List Nat) (p : Nat), p < sh_b.length →
      (pinIndB (List.replicate sh_b.length none) (jndB sh_u sh_b) i).getD p none
        = if ((p : Int) - sh_b.length) ∈ jndB sh_u sh_b
          then some (pyGetNeg i ((p : Int) - sh_b.length) 0)
          else none) := by
  refine ⟨mem_jndB_iff sh_u sh_b, ?_⟩
  intro i p hp
  have hmin : min sh_u.length sh_b.length ≤ sh_b.length := Nat.min_le_right _ _
  have hrange : ∀ j ∈ jndB sh_u sh_b,
      -((List.replicate sh_b.length (none : Option Nat)).length : Int) ≤ j ∧ j < 0 := by
    intro j hj
    obtain ⟨h1, h2, _⟩ := (mem_jndB_iff sh_u sh_b j).mp hj
    rw [List.length_replicate]
    omega
  rw [pinIndB_getD (jndB sh_u sh_b) _ i p (by simpa using hp) hrange]
  rw [List.length_replicate, getD_replicate_none]

theorem c5_witness :
    (pinIndB (List.replicate 3 (none : Option Nat)) (jndB [2, 3] [4, 1, 3]) [7, 5]).getD 2 none
      = some 5 := by
  have h := (c5_aligned_axis_classification [2, 3] [4, 1, 3]).2 [7, 5] 2 (by decide)
  exact h.trans (by decide)

theorem npScale_get (c : ℚ) (x : NDArray) (idx : List Nat) :
    (npScale c x).get idx = c * x.get idx := by
  unfold npScale NDArray.get
  rw [List.getD_eq_getElem?_getD, List.getD_eq_getElem?_getD, List.getElem?_map]
  cases x.data[flatIndex x.shape idx]? with
  | none => simp
  | some v => simp

theorem get_map_data (g : ℚ → ℚ) (sh : List Nat) (f : List Nat → ℚ) (idx : List Nat)
    (h : ValidIdx idx sh) :
    NDArray.get ⟨sh, ((nested_iterator sh).map f).map g⟩ idx = g (f idx) := by
  rw [List.map_map]
  exact get_mk_map (g ∘ f) h

theorem logdet_chol_dense_char (log : ℚ → ℚ) (U : NDArray) (bsh : List Nat) (n : Nat)
    (hsh : U.shape = bsh ++ [n, n]) :
    ∃ R, logdet_chol log (CholInput.dense U) = Except.ok R ∧ R.shape = bsh ∧
      ∀ i ∈ nested_iterator bsh,
        R.get i = 2 * ((List.range n).map (fun k => log ((takeSlice U i).get [k, k]))).sum := by
  have hD : npDiagBatch U = ⟨bsh ++ [n],
      (nested_iterator (bsh ++ [n])).map
        (fun idx => U.get (idx ++ [idx.getLastD 0]))⟩ := by
    unfold npDiagBatch
    rw [hsh, take_batch2, getLastD_append2]
  have hX : npLog log (npDiagBatch U) = ⟨bsh ++ [n],
      ((nested_iterator (bsh ++ [n])).map (fun idx => U.get (idx ++ [idx.getLastD 0]))).map
        log⟩ := by
    rw [hD]
    rfl
  have hXshape : (npLog log (npDiagBatch U)).shape = bsh ++ [n] := by rw [hX]
  have hSum : npSumLast (npLog log (npDiagBatch U)) = ⟨bsh,
      (nested_iterator bsh).map (fun b =>
        ((List.range n).map
          (fun k => (npLog log (npDiagBatch U)).get (b ++ [k]))).sum)⟩ := by
    unfold npSumLast
    rw [hXshape, List.dropLast_concat, List.getLastD_concat]
  refine ⟨npScale 2 (npSumLast (npLog log (npDiagBatch U))), rfl, ?_, ?_⟩
  · show (npSumLast (npLog log (npDiagBatch U))).shape = bsh
    rw [hSum]
  · intro i hi
    have hival : ValidIdx i bsh := mem_nested.mp hi
    have hilen : i.length = bsh.length := List.Forall₂.length_eq hival
    rw [npScale_get]
    congr 1
    have hget : (npSumLast (npLog log (npDiagBatch U))).get i
        = ((List.range n).map
            (fun k => (npLog log (npDiagBatch U)).get (i ++ [k]))).sum := by
      rw [hSum]
      exact get_mk_map _ hival
    rw [hget]
    congr 1
    apply List.map_congr_left
    intro k hk
    rw [List.mem_range] at hk
    have hvalid : ValidIdx (i ++ [k]) (bsh ++ [n]) :=
      validIdx_append hival (List.Forall₂.cons hk List.Forall₂.nil)
    rw [hX]
    rw [get_map_data _ _ _ _ hvalid]
    have hlast : (i ++ [k]).getLastD 0 = k := List.getLastD_concat _ _ _
    rw [hlast]
    have happ : (i ++ [k]) ++ [k] = i ++ [k, k] := by simp
    rw [happ]
    rw [get_takeSlice hsh hilen
      (List.Forall₂.cons hk (List.Forall₂.cons hk List.Forall₂.nil))]

/-- Claim C6, counterexample: for a sparse factor input the log-determinant
operation does not return the sum of logs of the factor's `D` entries — the
`elif isinstance(U, cholmod.Factor)` test evaluates the name `cholmod`, and
that import is commented out, so it raises `NameError` instead. -/
theorem c6_counterexample :
    chol_logdet (fun x => x) (CholInput.sparseF ⟨[2]⟩)
      = Except.error (PyErr.nameError "cholmod") := rfl

/-- Claim C6 (amended): for every dense factor `U`, the batched
log-determinant `logdet_chol` returns a batch of scalars with `U`'s batch
shape (a single scalar for an empty batch shape), each equal to twice the sum
of the logs of that slice's diagonal entries, and `chol_logdet` agrees on a
single 2-D factor; a sparse-factor input, however, raises `NameError`
(`cholmod` is unbound — its import is commented out), and only the
unreachable branch body would compute the non-doubled sum of logs of `D`. -/
theorem c6_logdet_amended (log : ℚ → ℚ) (U : NDArray) (bsh : List Nat) (n : Nat)
    (hsh : U.shape = bsh ++ [n, n]) :
    (∃ R, logdet_chol log (CholInput.dense U) = Except.ok R ∧ R.shape = bsh ∧
      ∀ i ∈ nested_iterator bsh,
        R.get i = 2 * ((List.range n).map (fun k => log ((takeSlice U i).get [k, k]))).sum) ∧
    (∀ (V : NDArray) (m : Nat), V.shape = [m, m] →
      chol_logdet log (CholInput.dense V)
        = Except.ok (2 * ((List.range m).map (fun k => log (V.get [k, k]))).sum)) ∧
    (∀ F : SparseFactor,
      chol_logdet log (CholInput.sparseF F) = Except.error (PyErr.nameError "cholmod") ∧
      logdet_chol log (CholInput.sparseF F) = Except.error (PyErr.nameError "cholmod") ∧
      chol_logdet_sparse_body log F = (F.D.map log).sum) := by
  refine ⟨logdet_chol_dense_char log U bsh n hsh, ?_, ?_⟩
  · intro V m hV
    rcases V with ⟨sh, d⟩
    obtain rfl : sh = [m, m] := hV
    unfold chol_logdet npDiag
    simp only [Nat.min_self, Except.map, List.map_map]
    rfl
  · intro F
    exact ⟨rfl, rfl, rfl⟩

theorem c6_witness :
    ∃ R, logdet_chol (fun x => x) (CholInput.dense ⟨[2, 1, 1], [4, 9]⟩) = Except.ok R ∧
      R.get [0] = 8 ∧ R.get [1] = 18 := by
  obtain ⟨R, hok, hshape, hget⟩ :=
    (c6_logdet_amended (fun x => x) ⟨[2, 1, 1], [4, 9]⟩ [2] 1 rfl).1
  refine ⟨R, hok, (hget [0] (by decide)).trans ?_, (hget [1] (by decide)).trans ?_⟩
  · norm_num [takeSlice, NDArray.get, flatIndex, List.range_succ, List.getD]
  · norm_num [takeSlice, NDArray.get, flatIndex, List.range_succ, List.getD]

theorem ndarray_ext {x y : NDArray} (h1 : x.shape = y.shape) (h2 : x.data = y.data) :
    x = y := by
  cases x
  cases y
  simp_all

/-- Claim C7: for every dense batch `C` of symmetric positive-definite
matrices (each slice factorizable by the external primitive, which honours
the spec §4.3 contract), `chol(C)` returns an array of the same shape as `C`
in which every matrix slice is exactly the triangular Cholesky factor the
primitive produced for the corresponding slice of `C` — triangular with zeros
in the opposite triangle per the contract. -/
theorem c7_chol_batch_factorization (cf : NDArray → Option NDArray) (C : NDArray)
    (bsh : List Nat) (n : Nat)
    (hsh : C.shape = bsh ++ [n, n])
    (hcontract : ∀ M F, cf M = some F → IsCholFactor M F ∧ F.data.length = M.shape.prod)
    (hfac : ∀ i ∈ nested_iterator bsh, ∃ F, cf (takeSlice C i) = some F) :
    ∃ U, chol cf C = Except.ok U ∧ U.shape = C.shape ∧
      ∀ i ∈ nested_iterator bsh,
        cf (takeSlice C i) = some (takeSlice U i) ∧
        IsCholFactor (takeSlice C i) (takeSlice U i) := by
  set Fi : List Nat → NDArray := fun i => (cf (takeSlice C i)).getD ⟨[], []⟩ with hFi
  have hF : ∀ i ∈ nested_iterator bsh, cf (takeSlice C i) = some (Fi i) := by
    intro i hi
    obtain ⟨F0, h0⟩ := hfac i hi
    simp only [hFi]
    rw [h0]
    rfl
  have hFlen : ∀ i ∈ nested_iterator bsh, (Fi i).data.length = n * n := by
    intro i hi
    have h := (hcontract _ _ (hF i hi)).2
    rw [takeSlice_shape hsh (nested_length_eq hi)] at h
    simpa using h
  obtain ⟨U, hok, hUsh, hslices⟩ := chol_ok_characterization cf C bsh n n hsh Fi hF hFlen
  refine ⟨U, hok, hUsh, ?_⟩
  intro i hi
  obtain ⟨hs_shape, hs_data⟩ := hslices i hi
  have hFsh : (Fi i).shape = [n, n] := by
    have h := (hcontract _ _ (hF i hi)).1.1
    rw [takeSlice_shape hsh (nested_length_eq hi)] at h
    exact h
  have heq : takeSlice U i = Fi i := ndarray_ext (hs_shape.trans hFsh.symm) hs_data
  rw [heq]
  exact ⟨hF i hi, (hcontract _ _ (hF i hi)).1⟩

theorem c7_witness :
    ∃ U, chol (fun M => if M = (⟨[1, 1], [1]⟩ : NDArray) then some ⟨[1, 1], [1]⟩ else none)
        ⟨[2, 1, 1], [1, 1]⟩ = Except.ok U ∧ U.shape = [2, 1, 1] := by
  have hcontract : ∀ M F,
      (fun M => if M = (⟨[1, 1], [1]⟩ : NDArray) then some (⟨[1, 1], [1]⟩ : NDArray)
        else none) M = some F →
      IsCholFactor M F ∧ F.data.length = M.shape.prod := by
    intro M F h
    simp only at h
    split_ifs at h with hM
    · obtain rfl := Option.some.inj h
      subst hM
      refine ⟨⟨rfl, ?_, ?_⟩, by norm_num⟩
      · intro r c hrc
        unfold NDArray.get
        rw [List.getD_eq_getElem?_getD, List.getElem?_eq_none (by
          have hfi : flatIndex [1, 1] [r, c] = r * 1 + (c * 1 + 0) := rfl
          rw [hfi]
          simp only [List.length_cons, List.length_nil]
          omega)]
        rfl
      · intro r c hr hc
        have h1 : ([1, 1] : List Nat).getD 0 0 = 1 := rfl
        rw [h1] at hr hc
        obtain rfl : r = 0 := by omega
        obtain rfl : c = 0 := by omega
        norm_num [NDArray.get, flatIndex, List.range_succ, List.getD]
  have hfac : ∀ i ∈ nested_iterator [2],
      ∃ F, (fun M => if M = (⟨[1, 1], [1]⟩ : NDArray) then some (⟨[1, 1], [1]⟩ : NDArray)
        else none) (takeSlice ⟨[2, 1, 1], [1, 1]⟩ i) = some F := by
    intro i hi
    have h01 : i = [0] ∨ i = [1] := by
      have he : nested_iterator [2] = [[0], [1]] := rfl
      rw [he] at hi
      simpa using hi
    rcases h01 with rfl | rfl
    · refine ⟨⟨[1, 1], [1]⟩, ?_⟩
      show (if (⟨[1, 1], [1]⟩ : NDArray) = ⟨[1, 1], [1]⟩
          then some (⟨[1, 1], [1]⟩ : NDArray) else none) = some ⟨[1, 1], [1]⟩
      rw [if_pos rfl]
    · refine ⟨⟨[1, 1], [1]⟩, ?_⟩
      show (if (⟨[1, 1], [1]⟩ : NDArray) = ⟨[1, 1], [1]⟩
          then some (⟨[1, 1], [1]⟩ : NDArray) else none) = some ⟨[1, 1], [1]⟩
      rw [if_pos rfl]
  obtain ⟨U, hok, hsh, _⟩ := c7_chol_batch_factorization _ _ [2] 1 rfl hcontract hfac
  exact ⟨U, hok, hsh⟩

/-- Claim C8: for every dense batch `C` containing at least one slice the
factorization primitive rejects (not symmetric positive definite), `chol(C)`
raises `Exception("Matrix not positive definite")` and returns no output at
all — no partial factor batch for the valid slices. -/
theorem c8_not_positive_definite_aborts (cf : NDArray → Option NDArray) (C : NDArray)
    (hrank : 2 ≤ C.shape.length)
    (hbad : ∃ i ∈ nested_iterator (C.shape.take (C.shape.length - 2)),
      cf (takeSlice C i) = none) :
    chol cf C = Except.error (PyErr.exception "Matrix not positive definite") := by
  have h2d : atleast_2d C = C := atleast_2d_of_rank2 hrank
  show (nested_iterator ((atleast_2d C).shape.take ((atleast_2d C).shape.length - 2))).foldlM
      _ (npEmpty (atleast_2d C).shape) = _
  rw [h2d]
  exact chol_foldlM_err cf C _ _ hbad

theorem c8_witness :
    chol (fun M => if M = (⟨[1, 1], [4]⟩ : NDArray) then some ⟨[1, 1], [2]⟩ else none)
      ⟨[2, 1, 1], [4, 7]⟩
      = Except.error (PyErr.exception "Matrix not positive definite") := by
  apply c8_not_positive_definite_aborts
  · show 2 ≤ ([2, 1, 1] : List Nat).length
    decide
  · refine ⟨[1], ?_, ?_⟩
    · show [1] ∈ nested_iterator (([2, 1, 1] : List Nat).take 1)
      rw [show (([2, 1, 1] : List Nat).take 1) = [2] from rfl,
        show nested_iterator [2] = [[0], [1]] from rfl]
      simp
    · have hne : (⟨[1, 1], [(7 : ℚ)]⟩ : NDArray) ≠ ⟨[1, 1], [4]⟩ := by
        intro hc
        have hd := congrArg NDArray.data hc
        simp only at hd
        injection hd with h1 _
        norm_num at h1
      show (if (⟨[1, 1], [(7 : ℚ)]⟩ : NDArray) = ⟨[1, 1], [4]⟩
          then some (⟨[1, 1], [2]⟩ : NDArray) else none) = none
      rw [if_neg hne]

/-! ## Heap bridging lemmas for the frame property -/

theorem set_append_singleton {β : Type _} :
    ∀ (h : List β) (u v : β), (h ++ [u]).set h.length v = h ++ [v] := by
  intro h
  induction h with
  | nil => intro u v; rfl
  | cons a t ih => intro u v; simp [List.set_cons_succ, ih]

theorem getD_append_singleton {β : Type _} (h : List β) (u d : β) :
    (h ++ [u]).getD h.length d = u := by
  rw [List.getD_eq_getElem?_getD, List.getElem?_append_right (Nat.le_refl _)]
  simp

theorem except_map_ok {ε α β : Type _} {e : Except ε α} {f : α → β} {y : β}
    (h : e.map f = Except.ok y) : ∃ x, e = Except.ok x ∧ y = f x := by
  cases e with
  | error er => simp [Except.map] at h
  | ok x =>
    refine ⟨x, rfl, ?_⟩
    have : Except.ok (f x) = (Except.ok y : Except ε β) := h
    cases this
    rfl

theorem heap_foldlM_chol (cf : NDArray → Option NDArray) (C : NDArray) :
    ∀ (is : List (List Nat)) (h : Heap) (u : NDArray),
      (is.foldlM (fun hp i =>
          match cf (takeSlice C i) with
          | some F => Except.ok (hWrite hp h.length (setSlice (hRead hp h.length) i F))
          | none => Except.error (PyErr.exception "Matrix not positive definite"))
        (h ++ [u]) : Except PyErr Heap)
      = (is.foldlM (fun U i =>
          match cf (takeSlice C i) with
          | some F => Except.ok (setSlice U i F)
          | none => Except.error (PyErr.exception "Matrix not positive definite")) u).map
        (fun U => h ++ [U]) := by
  intro is
  induction is with
  | nil => intro h u; rfl
  | cons i it ih =>
    intro h u
    rw [List.foldlM_cons, List.foldlM_cons]
    cases hcf : cf (takeSlice C i) with
    | none => rfl
    | some F =>
      show (it.foldlM _ (hWrite (h ++ [u]) h.length (setSlice (hRead (h ++ [u]) h.length) i F))
          : Except PyErr Heap) = _
      rw [show hRead (h ++ [u]) h.length = u from getD_append_singleton h u _]
      rw [show hWrite (h ++ [u]) h.length (setSlice u i F) = h ++ [setSlice u i F] from
        set_append_singleton h u _]
      exact ih h (setSlice u i F)

theorem cholH_eq (cf : NDArray → Option NDArray) (h : Heap) (ca : Nat) :
    cholH cf h ca = (chol cf (hRead h ca)).map (fun U => (h ++ [U], h.length)) := by
  unfold cholH chol hAlloc
  dsimp only
  rw [heap_foldlM_chol cf (atleast_2d (hRead h ca)) _ h
    (npEmpty (atleast_2d (hRead h ca)).shape)]
  generalize ((nested_iterator ((atleast_2d (hRead h ca)).shape.take
      ((atleast_2d (hRead h ca)).shape.length - 2))).foldlM _
      (npEmpty (atleast_2d (hRead h ca)).shape) : Except PyErr NDArray) = m
  cases m with
  | error e => rfl
  | ok U => rfl

theorem heap_foldl_cholinv (cs : NDArray → NDArray → NDArray) (U : NDArray) :
    ∀ (is : List (List Nat)) (h : Heap) (v : NDArray),
      is.foldl (fun hp i => hWrite hp h.length (setSlice (hRead hp h.length) i
          (cs (takeSlice U i) (takeSlice (hRead hp h.length) i)))) (h ++ [v])
      = h ++ [is.foldl (fun V i => setSlice V i (cs (takeSlice U i) (takeSlice V i))) v] := by
  intro is
  induction is with
  | nil => intro h v; rfl
  | cons i it ih =>
    intro h v
    rw [List.foldl_cons, List.foldl_cons]
    rw [show hRead (h ++ [v]) h.length = v from getD_append_singleton h v _]
    rw [show hWrite (h ++ [v]) h.length
        (setSlice v i (cs (takeSlice U i) (takeSlice v i)))
      = h ++ [setSlice v i (cs (takeSlice U i) (takeSlice v i))] from
        set_append_singleton h v _]
    exact ih h (setSlice v i (cs (takeSlice U i) (takeSlice v i)))

theorem chol_invH_eq (cs : NDArray → NDArray → NDArray) (h : Heap) (ua : Nat) :
    chol_invH cs h ua = (h ++ [chol_inv cs (hRead h ua)], h.length) := by
  unfold chol_invH chol_inv hAlloc
  dsimp only
  rw [heap_foldl_cholinv cs (hRead h ua) _ h
    (npTileIdentity ((hRead h ua).shape.getLastD 0)
      ((hRead h ua).shape.take ((hRead h ua).shape.length - 2)))]

/-- Claim C9: no operation of the module mutates its inputs in place — in the
heap model, `chol` and `chol_inv` allocate a fresh buffer and write only into
it (every pre-existing buffer is unchanged, and the returned address is the
fresh one); `chol_solve` and `m_solve_triangular` never return normally at
all; and the log-determinant, outer-product and matrix-vector operations are
pure expressions whose results are fresh allocations, leaving every
pre-existing buffer unchanged. -/
theorem c9_no_input_mutation :
    (∀ (cf : NDArray → Option NDArray) (h : Heap) (ca : Nat) (h2 : Heap) (ua : Nat),
      cholH cf h ca = Except.ok (h2, ua) →
      ua = h.length ∧ ∀ a, a < h.length → h2.getD a ⟨[], []⟩ = h.getD a ⟨[], []⟩) ∧
    (∀ (cs : NDArray → NDArray → NDArray) (h : Heap) (ua : Nat),
      (chol_invH cs h ua).2 = h.length ∧
      ∀ a, a < h.length →
        (chol_invH cs h ua).1.getD a ⟨[], []⟩ = h.getD a ⟨[], []⟩) ∧
    (∀ (p : NDArray → NDArray → NDArray) (U b : NDArray),
      ∃ e, chol_solve p U b = Except.error e) ∧
    (∀ (p : NDArray → NDArray → NDArray) (U B : NDArray),
      ∃ e, m_solve_triangular p U B = Except.error e) ∧
    (∀ (log : ℚ → ℚ) (h : Heap) (a : Nat) (h2 : Heap) (r : ℚ),
      chol_logdetH log h a = Except.ok (h2, r) → h2 = h) ∧
    (∀ (log : ℚ → ℚ) (h : Heap) (a : Nat) (h2 : Heap) (ra : Nat),
      logdet_cholH log h a = Except.ok (h2, ra) →
      ra = h.length ∧ ∀ a2, a2 < h.length → h2.getD a2 ⟨[], []⟩ = h.getD a2 ⟨[], []⟩) ∧
    (∀ (h : Heap) (aA aB : Nat) (h2 : Heap) (ra : Nat),
      m_outerH h aA aB = Except.ok (h2, ra) →
      ra = h.length ∧ ∀ a2, a2 < h.length → h2.getD a2 ⟨[], []⟩ = h.getD a2 ⟨[], []⟩) ∧
    (∀ (h : Heap) (aA ab : Nat) (h2 : Heap) (ra : Nat),
      m_dotH h aA ab = Except.ok (h2, ra) →
      ra = h.length ∧ ∀ a2, a2 < h.length → h2.getD a2 ⟨[], []⟩ = h.getD a2 ⟨[], []⟩) := by
  have hfr : ∀ (h : Heap) (x : NDArray) (a : Nat), a < h.length →
      (h ++ [x]).getD a ⟨[], []⟩ = h.getD a ⟨[], []⟩ := by
    intro h x a ha
    exact List.getD_append _ _ _ _ ha
  refine ⟨?_, ?_, ?_, ?_, ?_, ?_, ?_, ?_⟩
  · intro cf h ca h2 ua hok
    rw [cholH_eq] at hok
    obtain ⟨U, _, hy⟩ := except_map_ok hok
    have hh2 : h2 = h ++ [U] := congrArg Prod.fst hy
    have hua : ua = h.length := congrArg Prod.snd hy
    refine ⟨hua, ?_⟩
    intro a ha
    rw [hh2]
    exact hfr h U a ha
  · intro cs h ua
    rw [chol_invH_eq]
    exact ⟨rfl, fun a ha => hfr h _ a ha⟩
  · intro p U b
    exact ⟨PyErr.nameError "B", chol_solve_raises p U b⟩
  · intro p U B
    exact ⟨PyErr.nameError "broadcasted_shape", m_solve_triangular_raises p U B⟩
  · intro log h a h2 r hok
    unfold chol_logdetH at hok
    obtain ⟨x, _, hy⟩ := except_map_ok hok
    exact congrArg Prod.fst hy
  · intro log h a h2 ra hok
    unfold logdet_cholH at hok
    obtain ⟨R, _, hy⟩ := except_map_ok hok
    have hh2 : h2 = h ++ [R] := congrArg Prod.fst hy
    have hra : ra = h.length := congrArg Prod.snd hy
    refine ⟨hra, ?_⟩
    intro a2 ha2
    rw [hh2]
    exact hfr h R a2 ha2
  · intro h aA aB h2 ra hok
    unfold m_outerH at hok
    obtain ⟨R, _, hy⟩ := except_map_ok hok
    have hh2 : h2 = h ++ [R] := congrArg Prod.fst hy
    have hra : ra = h.length := congrArg Prod.snd hy
    refine ⟨hra, ?_⟩
    intro a2 ha2
    rw [hh2]
    exact hfr h R a2 ha2
  · intro h aA ab h2 ra hok
    unfold m_dotH at hok
    obtain ⟨R, _, hy⟩ := except_map_ok hok
    have hh2 : h2 = h ++ [R] := congrArg Prod.fst hy
    have hra : ra = h.length := congrArg Prod.snd hy
    refine ⟨hra, ?_⟩
    intro a2 ha2
    rw [hh2]
    exact hfr h R a2 ha2

theorem c9_witness :
    ∃ pr, cholH (fun M => some M) [(⟨[1, 1], [4]⟩ : NDArray)] 0 = Except.ok pr ∧
      pr.2 = 1 ∧ pr.1.getD 0 ⟨[], []⟩ = ⟨[1, 1], [4]⟩ := by
  have hrun : cholH (fun M => some M) [(⟨[1, 1], [4]⟩ : NDArray)] 0
      = Except.ok ([⟨[1, 1], [4]⟩, ⟨[1, 1], [4]⟩], 1) := rfl
  have h9 := c9_no_input_mutation.1 (fun M => some M) [(⟨[1, 1], [4]⟩ : NDArray)] 0
    [⟨[1, 1], [4]⟩, ⟨[1, 1], [4]⟩] 1 hrun
  exact ⟨_, hrun, h9.1, (h9.2 0 (by decide)).trans rfl⟩

/-! ## Batched matrix-vector product -/

theorem m_dot_characterization (A b : NDArray) (shA shb bsh : List Nat) (m n : Nat)
    (hA : A.shape = shA ++ [m, n]) (hb : b.shape = shb ++ [n])
    (hbc : broadcastShapes shA shb = some bsh) :
    m_dot A b = Except.ok ⟨bsh ++ [m],
      (nested_iterator (bsh ++ [m])).map (fun idx =>
        ((List.range n).map (fun k =>
          A.get (bcastIdx shA idx.dropLast ++ [idx.getLastD 0, k]) *
            b.get (bcastIdx shb idx.dropLast ++ [k]))).sum)⟩ := by
  unfold m_dot
  dsimp only
  rw [hA, hb]
  rw [take_batch2, take_batch1, getD_penult, getLastD_append2, List.getLastD_concat]
  rw [if_pos rfl, hbc]

/-- Claim C10: for every `A` with trailing axes `(M, N)` and every `b` with
trailing axis `N` whose leading batch axes broadcast against `A`'s, `m_dot`
returns an array with the broadcasted batch shape and trailing axis `M` whose
entries satisfy `result[..., i] = sum over k of A[..., i, k] * b[..., k]`;
in particular for `A` of shape `(2, 3, 3)` and `b` of shape `(3,)` the result
has shape `(2, 3)` and equals the ordinary matrix-vector product of each of
the two matrices with the same `b`. -/
theorem c10_m_dot_batched_matvec :
    (∀ (A b : NDArray) (shA shb bsh : List Nat) (m n : Nat),
      A.shape = shA ++ [m, n] → b.shape = shb ++ [n] →
      broadcastShapes shA shb = some bsh →
      ∃ r, m_dot A b = Except.ok r ∧ r.shape = bsh ++ [m] ∧
        ∀ (c : List Nat) (i : Nat), c ∈ nested_iterator bsh → i < m →
          r.get (c ++ [i]) = ((List.range n).map (fun k =>
            A.get (bcastIdx shA c ++ [i, k]) * b.get (bcastIdx shb c ++ [k]))).sum) ∧
    (∀ (A b : NDArray), A.shape = [2, 3, 3] → b.shape = [3] →
      ∃ r, m_dot A b = Except.ok r ∧ r.shape = [2, 3] ∧
        ∀ j, j < 2 → takeSlice r [j] = specMatvec (takeSlice A [j]) b) := by
  constructor
  · intro A b shA shb bsh m n hA hb hbc
    rw [m_dot_characterization A b shA shb bsh m n hA hb hbc]
    refine ⟨_, rfl, rfl, ?_⟩
    intro c i hc hi
    have hcval : ValidIdx c bsh := mem_nested.mp hc
    have hvalid : ValidIdx (c ++ [i]) (bsh ++ [m]) :=
      validIdx_append hcval (List.Forall₂.cons hi List.Forall₂.nil)
    rw [get_mk_map _ hvalid]
    rw [List.dropLast_concat, List.getLastD_concat]
  · intro A b hA hb
    have hchar := m_dot_characterization A b [2] [] [2] 3 3 hA hb rfl
    refine ⟨_, hchar, rfl, ?_⟩
    intro j hj
    set f : List Nat → ℚ := fun idx =>
      ((List.range 3).map (fun k =>
        A.get (bcastIdx [2] idx.dropLast ++ [idx.getLastD 0, k]) *
          b.get (bcastIdx [] idx.dropLast ++ [k]))).sum with hfdef
    have hMsh : (takeSlice A [j]).shape = [3, 3] := by
      show A.shape.drop 1 = [3, 3]
      rw [hA]
      rfl
    have hfj : flatIndex [2, 3] [j] = j * 3 := by
      show j * ([3] : List Nat).prod + 0 = j * 3
      simp
    apply ndarray_ext
    · show ([2, 3] : List Nat).drop 1 = [(takeSlice A [j]).shape.getD 0 0]
      rw [hMsh]
      rfl
    · show (((nested_iterator [2, 3]).map f).drop (flatIndex [2, 3] [j])).take 3
          = (List.range ((takeSlice A [j]).shape.getD 0 0)).map (fun i =>
            ((List.range ((takeSlice A [j]).shape.getLastD 0)).map
              (fun k => (takeSlice A [j]).get [i, k] * b.get [k])).sum)
      rw [hMsh, hfj]
      show (((nested_iterator [2, 3]).map f).drop (j * 3)).take 3
          = (List.range 3).map (fun i =>
            ((List.range 3).map (fun k => (takeSlice A [j]).get [i, k] * b.get [k])).sum)
      have hlen6 : ((nested_iterator [2, 3]).map f).length = 6 := by
        rw [List.length_map, length_nested]
        rfl
      apply List.ext_getElem
      · rw [List.length_take, List.length_drop, hlen6, List.length_map, List.length_range]
        omega
      · intro p h1 h2
        have hp3 : p < 3 := by simpa using h2
        have hmem : ValidIdx [j, p] [2, 3] :=
          List.Forall₂.cons hj (List.Forall₂.cons hp3 List.Forall₂.nil)
        have hfi : flatIndex [2, 3] [j, p] = j * 3 + p := by
          show j * ([3] : List Nat).prod + (p * ([] : List Nat).prod + 0) = j * 3 + p
          simp
        have hee : ∀ hh : j * 3 + p < (nested_iterator [2, 3]).length,
            (nested_iterator [2, 3])[j * 3 + p] = [j, p] := by
          intro hh
          have h := nested_getElem? hmem
          rw [hfi, List.getElem?_eq_getElem hh] at h
          exact Option.some.inj h
        rw [List.getElem_take, List.getElem_drop, List.getElem_map]
        rw [hee (by
          rw [length_nested]
          show j * 3 + p < 6
          omega)]
        rw [List.getElem_map]
        simp only [List.getElem_range]
        show ((List.range 3).map (fun k =>
            A.get (bcastIdx [2] [j] ++ [p, k]) * b.get (bcastIdx [] [j] ++ [k]))).sum
          = ((List.range 3).map (fun k => (takeSlice A [j]).get [p, k] * b.get [k])).sum
        congr 1
        apply List.map_congr_left
        intro k hk
        rw [List.mem_range] at hk
        rw [@get_takeSlice A [2] [3, 3] [j] [p, k]
          (show A.shape = [2] ++ [3, 3] from hA) rfl
          (List.Forall₂.cons hp3 (List.Forall₂.cons hk List.Forall₂.nil))]
        rfl

theorem c10_witness :
    ∃ r, m_dot ⟨[2, 3, 3], [1, 0, 0, 0, 1, 0, 0, 0, 1, 2, 0, 0, 0, 2, 0, 0, 0, 2]⟩
        ⟨[3], [5, 7, 11]⟩ = Except.ok r ∧ r.shape = [2, 3] ∧
      takeSlice r [0] = specMatvec (takeSlice ⟨[2, 3, 3],
        [1, 0, 0, 0, 1, 0, 0, 0, 1, 2, 0, 0, 0, 2, 0, 0, 0, 2]⟩ [0]) ⟨[3], [5, 7, 11]⟩ := by
  obtain ⟨r, hok, hsh, hslice⟩ := c10_m_dot_batched_matvec.2
    ⟨[2, 3, 3], [1, 0, 0, 0, 1, 0, 0, 0, 1, 2, 0, 0, 0, 2, 0, 0, 0, 2]⟩
    ⟨[3], [5, 7, 11]⟩ rfl rfl
  exact ⟨r, hok, hsh, hslice 0 (by decide)⟩

end BayespyLinalg
